import Mathlib

/-!
Verification of the `RnnlmTrainer` asynchronous two-stage training pipeline
(`src/rnnlm/rnnlm-training.h`).

The header file declares the trainer (`Train`, the destructor/finalize,
`RunBackgroundThread`, `GetWordEmbedding`) together with the two slots
(`current_minibatch_` = Incoming, `previous_minibatch_`+`derived_` = Ready)
and the four semaphores (`current_minibatch_full_`, `current_minibatch_empty_`,
`previous_minibatch_full_`, `previous_minibatch_empty_`).  The function bodies
(`rnnlm-training.cc`) are not part of the source tree here, so the pipeline
dynamics are modelled from the specification (spec sections 4.1-4.3 and the
detailed member comments of the header), as a small-step transition system
with two execution contexts interleaving nondeterministically.

Minibatches are abstracted as `Nat` tags (the spec's own test plan uses tags
1..N); the derived data of a minibatch `mb` is `d mb` for an arbitrary
derivation function `d`, matching the spec's description of FeatureDeriver as
a pure function of the minibatch.
-/

set_option autoImplicit false

/-- Modelled from the spec: control locations of the foreground (Trainer)
context.  `Train(mb)` is, per spec section 4.2: (1) take the Ready pair
(blocking on `previous_minibatch_full_`), skipped exactly on the first call;
(2) invoke CoreTrainer on it and discard it (signalling
`previous_minibatch_empty_`); (3) place `mb` into Incoming (blocking on
`current_minibatch_empty_`, then signalling `current_minibatch_full_`).
`finalize()` sets end-of-input, posts one poison signal on
`current_minibatch_full_`, performs one last training step if a pair is
pending, and joins the worker. -/
inductive FgPC where
  | idle
  | trWaitReadyFull (mb : Nat)
  | trConsume (mb : Nat)
  | trWaitIncEmpty (mb : Nat)
  | trPut (mb : Nat)
  | fiSetEoi
  | fiPoison
  | fiWaitReadyFull
  | fiConsume
  | fiJoin
  | done
  deriving DecidableEq

/-- Modelled from the spec: control locations of the background
(DerivationWorker) context, spec section 4.3: wait on
`current_minibatch_full_`; check end-of-input/payload; take the minibatch and
immediately signal `current_minibatch_empty_`; compute the derived data; wait
on `previous_minibatch_empty_`; publish and signal
`previous_minibatch_full_`; loop. -/
inductive BgPC where
  | waitFull
  | check
  | compute (mb : Nat)
  | waitEmpty (mb dd : Nat)
  | publish (mb dd : Nat)
  | exited
  deriving DecidableEq

/-- The shared state of the pipeline: the remaining submissions of the
driving caller, both program counters, the two slots (as lists, so that slot
occupancy is a provable fact rather than a typing assumption), the four
semaphore counters, the end-of-input flag, `num_minibatches_processed_`, and
the trace of CoreTrainer invocations (each recorded as the (minibatch,
derived-data) pair it was invoked with). -/
structure TState where
  sub : List Nat
  fg : FgPC
  bg : BgPC
  incoming : List Nat
  ready : List (Nat × Nat)
  cFull : Nat
  cEmpty : Nat
  pFull : Nat
  pEmpty : Nat
  eoi : Bool
  nproc : Nat
  trace : List (Nat × Nat)
  deriving DecidableEq

/-- Modelled from the spec: one atomic step of the foreground (Trainer)
context; `none` means the context is blocked (on a semaphore or on the join)
or finished.  Semaphore waits decrement a positive counter and block on zero;
signals increment. -/
def fgStep (s : TState) : Option TState :=
  match s.fg with
  | .idle =>
      match s.sub with
      | [] => some { s with fg := .fiSetEoi }
      | mb :: rest =>
          if s.nproc = 0 then
            some { s with fg := .trWaitIncEmpty mb, sub := rest }
          else
            some { s with fg := .trWaitReadyFull mb, sub := rest }
  | .trWaitReadyFull mb =>
      if s.pFull = 0 then none
      else some { s with fg := .trConsume mb, pFull := s.pFull - 1 }
  | .trConsume mb =>
      match s.ready with
      | [] => none
      | p :: rest =>
          some { s with
                   fg := .trWaitIncEmpty mb, ready := rest,
                   trace := s.trace ++ [p], pEmpty := s.pEmpty + 1 }
  | .trWaitIncEmpty mb =>
      if s.cEmpty = 0 then none
      else some { s with fg := .trPut mb, cEmpty := s.cEmpty - 1 }
  | .trPut mb =>
      some { s with
               fg := .idle, incoming := s.incoming ++ [mb],
               nproc := s.nproc + 1, cFull := s.cFull + 1 }
  | .fiSetEoi => some { s with fg := .fiPoison, eoi := true }
  | .fiPoison =>
      some { s with
               fg := if s.nproc = 0 then .fiJoin else .fiWaitReadyFull,
               cFull := s.cFull + 1 }
  | .fiWaitReadyFull =>
      if s.pFull = 0 then none
      else some { s with fg := .fiConsume, pFull := s.pFull - 1 }
  | .fiConsume =>
      match s.ready with
      | [] => none
      | p :: rest =>
          some { s with
                   fg := .fiJoin, ready := rest,
                   trace := s.trace ++ [p], pEmpty := s.pEmpty + 1 }
  | .fiJoin =>
      if s.bg = .exited then some { s with fg := .done } else none
  | .done => none

/-- Modelled from the spec: one atomic step of the background
(DerivationWorker) context, parametrized by the derivation function `d`;
`none` means blocked or exited. -/
def bgStep (d : Nat → Nat) (s : TState) : Option TState :=
  match s.bg with
  | .waitFull =>
      if s.cFull = 0 then none
      else some { s with bg := .check, cFull := s.cFull - 1 }
  | .check =>
      match s.incoming with
      | mb :: rest =>
          some { s with
                   bg := .compute mb, incoming := rest,
                   cEmpty := s.cEmpty + 1 }
      | [] =>
          if s.eoi then some { s with bg := .exited }
          else some { s with bg := .waitFull }
  | .compute mb => some { s with bg := .waitEmpty mb (d mb) }
  | .waitEmpty mb dd =>
      if s.pEmpty = 0 then none
      else some { s with bg := .publish mb dd, pEmpty := s.pEmpty - 1 }
  | .publish mb dd =>
      some { s with
               bg := .waitFull, ready := s.ready ++ [(mb, dd)],
               pFull := s.pFull + 1 }
  | .exited => none

/-- The state right after construction: both slots empty, each slot's
(full, empty) semaphore pair at (0, 1), end-of-input clear,
`num_minibatches_processed_` zero, worker started at its wait. -/
def initState (ms : List Nat) : TState :=
  { sub := ms, fg := .idle, bg := .waitFull, incoming := [], ready := [],
    cFull := 0, cEmpty := 1, pFull := 0, pEmpty := 1,
    eoi := false, nproc := 0, trace := [] }

/-- The interleaving step relation: either context takes one atomic step. -/
def Step (d : Nat → Nat) (s t : TState) : Prop :=
  fgStep s = some t ∨ bgStep d s = some t

/-- Reachability from the freshly constructed state, under every possible
interleaving. -/
def Reachable (d : Nat → Nat) (ms : List Nat) (s : TState) : Prop :=
  Relation.ReflTransGen (Step d) (initState ms) s

/-- A canonical deterministic scheduler: run the foreground context if it can
move, otherwise the background one, otherwise stay put. -/
def schedStep (d : Nat → Nat) (s : TState) : TState :=
  match fgStep s with
  | some t => t
  | none =>
      match bgStep d s with
      | some t => t
      | none => s

/-- Run `n` steps of the canonical scheduler. -/
def runFrom (d : Nat → Nat) : Nat → TState → TState
  | 0, s => s
  | n + 1, s => runFrom d n (schedStep d s)

/-- The fully wound-down state after `N` submissions and finalize: trainer
joined, worker exited, both slots empty, semaphores back at (0, 1), and the
CoreTrainer trace listing every submitted minibatch, in order, with its
derived data. -/
def doneState (d : Nat → Nat) (ms : List Nat) : TState :=
  { sub := [], fg := .done, bg := .exited, incoming := [], ready := [],
    cFull := 0, cEmpty := 1, pFull := 0, pEmpty := 1,
    eoi := true, nproc := ms.length,
    trace := ms.map (fun m => (m, d m)) }

/-- The quiescent state the canonical scheduler reaches right after each
completed `Train` call: the just-submitted minibatch `cur` sits in Incoming,
Ready is empty, the worker is back at its wait, and every earlier submission
(`pre`) has been trained. -/
def midState (d : Nat → Nat) (pre : List Nat) (cur : Nat) (rest : List Nat) :
    TState :=
  { sub := rest, fg := .idle, bg := .waitFull, incoming := [cur], ready := [],
    cFull := 1, cEmpty := 0, pFull := 0, pEmpty := 1,
    eoi := false, nproc := pre.length + 1,
    trace := pre.map (fun m => (m, d m)) }

theorem schedStep_reachable (d : Nat → Nat) (ms : List Nat) (s : TState)
    (h : Reachable d ms s) : Reachable d ms (schedStep d s) := by
  unfold schedStep
  cases hf : fgStep s with
  | some t => exact Relation.ReflTransGen.tail h (Or.inl hf)
  | none =>
      cases hb : bgStep d s with
      | some t => exact Relation.ReflTransGen.tail h (Or.inr hb)
      | none => exact h

theorem runFrom_reachable (d : Nat → Nat) (ms : List Nat) (n : Nat) :
    Reachable d ms (runFrom d n (initState ms)) := by
  have gen : ∀ (k : Nat) (s : TState), Reachable d ms s →
      Reachable d ms (runFrom d k s) := by
    intro k
    induction k with
    | zero => intro s hs; exact hs
    | succ k ih =>
        intro s hs
        exact ih (schedStep d s) (schedStep_reachable d ms s hs)
  exact gen n (initState ms) Relation.ReflTransGen.refl

theorem runFrom_add (d : Nat → Nat) (m n : Nat) (s : TState) :
    runFrom d (m + n) s = runFrom d n (runFrom d m s) := by
  induction m generalizing s with
  | zero => simp [runFrom]
  | succ m ih =>
      have : m + 1 + n = (m + n) + 1 := by omega
      rw [this]
      simp only [runFrom]
      exact ih (schedStep d s)

@[simp] def bgHolds : BgPC → Nat
  | .compute _ => 1
  | .waitEmpty _ _ => 1
  | .publish _ _ => 1
  | _ => 0

@[simp] def bgTok : BgPC → Nat
  | .check => 1
  | _ => 0

@[simp] def bgExitN : BgPC → Nat
  | .exited => 1
  | _ => 0

@[simp] def bgPubN : BgPC → Nat
  | .publish _ _ => 1
  | _ => 0

@[simp] def fgTok : FgPC → Nat
  | .trConsume _ => 1
  | .fiConsume => 1
  | _ => 0

@[simp] def fgHoldsInc : FgPC → Nat
  | .trPut _ => 1
  | _ => 0

@[simp] def poisoned : FgPC → Nat
  | .fiWaitReadyFull => 1
  | .fiConsume => 1
  | .fiJoin => 1
  | .done => 1
  | _ => 0

@[simp] def eoiRegion : FgPC → Bool
  | .fiPoison => true
  | .fiWaitReadyFull => true
  | .fiConsume => true
  | .fiJoin => true
  | .done => true
  | _ => false

/-- Number of pairs the worker has published into Ready so far. -/
def pubCount (s : TState) : Nat := s.trace.length + s.ready.length

/-- Number of minibatches the worker has taken out of Incoming so far. -/
def tookCount (s : TState) : Nat := pubCount s + bgHolds s.bg

/-- The global reachability invariant of the pipeline: the semaphore
accounting for both slots, the identification of slot contents and of the
data held by each context with the corresponding segment of the submission
sequence, and the bookkeeping tying `num_minibatches_processed_` and the
CoreTrainer trace to the control locations. -/
structure PipeInv (d : Nat → Nat) (ms : List Nat) (s : TState) : Prop where
  trace_eq : s.trace = (ms.take s.trace.length).map (fun m => (m, d m))
  ready_eq : s.ready = [] ∨
    ∃ mb, ms[s.trace.length]? = some mb ∧ s.ready = [(mb, d mb)]
  inc_eq : s.incoming = [] ∨
    ∃ mb, ms[tookCount s]? = some mb ∧ s.incoming = [mb]
  nproc_eq : s.nproc = tookCount s + s.incoming.length
  semC : s.cEmpty + s.incoming.length + fgHoldsInc s.fg = 1
  semP : s.pEmpty + s.ready.length + bgPubN s.bg = 1
  semPF : s.pFull + fgTok s.fg = s.ready.length
  semCF : s.cFull + tookCount s + bgTok s.bg + bgExitN s.bg =
    s.nproc + poisoned s.fg
  bg_hold : ∀ mb, s.bg = .compute mb → ms[pubCount s]? = some mb
  bg_hold2 : ∀ mb dd, s.bg = .waitEmpty mb dd ∨ s.bg = .publish mb dd →
    ms[pubCount s]? = some mb ∧ dd = d mb
  sub_idle : s.fg = .idle → s.sub = ms.drop s.nproc ∧ s.nproc ≤ ms.length
  sub_tr : ∀ mb, s.fg = .trWaitReadyFull mb ∨ s.fg = .trConsume mb ∨
      s.fg = .trWaitIncEmpty mb ∨ s.fg = .trPut mb →
    ms[s.nproc]? = some mb ∧ s.sub = ms.drop (s.nproc + 1)
  sub_fin : s.fg = .fiSetEoi ∨ s.fg = .fiPoison ∨ s.fg = .fiWaitReadyFull ∨
      s.fg = .fiConsume ∨ s.fg = .fiJoin ∨ s.fg = .done →
    s.sub = [] ∧ s.nproc = ms.length
  cnt_pre : s.fg = .idle ∨ s.fg = .fiSetEoi ∨ s.fg = .fiPoison →
    s.trace.length + 1 = s.nproc ∨ (s.nproc = 0 ∧ s.trace.length = 0)
  cnt_wait : (∃ mb, s.fg = .trWaitReadyFull mb ∨ s.fg = .trConsume mb) ∨
      s.fg = .fiWaitReadyFull ∨ s.fg = .fiConsume →
    s.trace.length + 1 = s.nproc
  cnt_put : (∃ mb, s.fg = .trWaitIncEmpty mb ∨ s.fg = .trPut mb) ∨
      s.fg = .fiJoin ∨ s.fg = .done →
    s.trace.length = s.nproc
  eoi_eq : s.eoi = eoiRegion s.fg
  check_ok : s.bg = .check → s.incoming ≠ [] ∨ s.eoi = true
  done_exit : s.fg = .done → s.bg = .exited

theorem inv_init (d : Nat → Nat) (ms : List Nat) : PipeInv d ms (initState ms) := by
  constructor <;> simp [initState, tookCount, pubCount]

theorem poisoned_eoiRegion (pc : FgPC) (h : 1 ≤ poisoned pc) :
    eoiRegion pc = true := by
  cases pc <;> simp_all

theorem drop_cons_getElem (ms : List Nat) (n mb : Nat) (rest : List Nat)
    (h : ms.drop n = mb :: rest) :
    ms[n]? = some mb ∧ ms.drop (n + 1) = rest := by
  constructor
  · have h1 := List.head?_drop ms n
    rw [h] at h1
    exact h1.symm
  · have h2 := List.tail_drop ms n
    rw [h] at h2
    exact h2.symm

theorem take_getElem_succ (ms : List Nat) (n mb : Nat) (h : ms[n]? = some mb) :
    ms.take (n + 1) = ms.take n ++ [mb] := by
  rw [List.take_succ, h]
  rfl

theorem getElem_lt_length (ms : List Nat) (n mb : Nat) (h : ms[n]? = some mb) :
    n < ms.length := by
  rw [List.getElem?_eq_some] at h
  exact h.1

set_option maxHeartbeats 1000000

theorem inv_fgStep (d : Nat → Nat) (ms : List Nat) (s t : TState)
    (hI : PipeInv d ms s) (h : fgStep s = some t) : PipeInv d ms t := by
  obtain ⟨tr_eq, rdy_eq, ince, npe, semC, semP, semPF, semCF, bgh, bgh2,
    subi, subt, subf, cpre, cwait, cput, eoieq, chk, dex⟩ := hI
  obtain ⟨sub, fg, bg, inc, rdy, cF, cE, pF, pE, eo, np, tr⟩ := s
  dsimp only at *
  cases fg with
  | idle =>
      cases sub with
      | nil =>
          simp only [fgStep, Option.some.injEq] at h
          subst h
          obtain ⟨hsub, hle⟩ := subi rfl
          have hnp : np = ms.length := by
            have := (List.drop_eq_nil_iff).mp hsub.symm
            omega
          exact ⟨tr_eq, rdy_eq, ince, npe,
            by
                dsimp only [fgHoldsInc, fgTok, poisoned, bgHolds, bgTok,
                  bgExitN, bgPubN, tookCount, pubCount] at *
                try simp only [List.length_append, List.length_cons,
                  List.length_nil] at *
                omega,
            semP,
            by
                dsimp only [fgHoldsInc, fgTok, poisoned, bgHolds, bgTok,
                  bgExitN, bgPubN, tookCount, pubCount] at *
                try simp only [List.length_append, List.length_cons,
                  List.length_nil] at *
                omega,
            by
                dsimp only [fgHoldsInc, fgTok, poisoned, bgHolds, bgTok,
                  bgExitN, bgPubN, tookCount, pubCount] at *
                try simp only [List.length_append, List.length_cons,
                  List.length_nil] at *
                omega,
            bgh, bgh2,
            by simp, by simp, fun _ => ⟨rfl, hnp⟩,
            fun _ => cpre (Or.inl rfl), by simp, by simp,
            by simpa using eoieq, chk, by simp⟩
      | cons mb rest =>
          simp only [fgStep] at h
          split at h <;> rename_i hnp <;>
            simp only [Option.some.injEq] at h <;> subst h
          · obtain ⟨hsub, _⟩ := subi rfl
            obtain ⟨hget, hdrop⟩ := drop_cons_getElem ms np mb rest hsub.symm
            have hc0 : tr.length = 0 := by
              rcases cpre (Or.inl rfl) with hx | hx <;> omega
            exact ⟨tr_eq, rdy_eq, ince, npe,
              by
                dsimp only [fgHoldsInc, fgTok, poisoned, bgHolds, bgTok,
                  bgExitN, bgPubN, tookCount, pubCount] at *
                try simp only [List.length_append, List.length_cons,
                  List.length_nil] at *
                omega,
              semP,
              by
                dsimp only [fgHoldsInc, fgTok, poisoned, bgHolds, bgTok,
                  bgExitN, bgPubN, tookCount, pubCount] at *
                try simp only [List.length_append, List.length_cons,
                  List.length_nil] at *
                omega,
              by
                dsimp only [fgHoldsInc, fgTok, poisoned, bgHolds, bgTok,
                  bgExitN, bgPubN, tookCount, pubCount] at *
                try simp only [List.length_append, List.length_cons,
                  List.length_nil] at *
                omega,
              bgh, bgh2,
              by simp,
              by intro mb' hor; simp at hor; subst hor; exact ⟨hget, hdrop.symm⟩,
              by simp, by simp, by simp,
              fun _ => by show tr.length = np; omega,
              by simpa using eoieq, chk, by simp⟩
          · obtain ⟨hsub, _⟩ := subi rfl
            obtain ⟨hget, hdrop⟩ := drop_cons_getElem ms np mb rest hsub.symm
            have hc1 : tr.length + 1 = np := by
              rcases cpre (Or.inl rfl) with hx | hx <;> omega
            exact ⟨tr_eq, rdy_eq, ince, npe,
              by
                dsimp only [fgHoldsInc, fgTok, poisoned, bgHolds, bgTok,
                  bgExitN, bgPubN, tookCount, pubCount] at *
                try simp only [List.length_append, List.length_cons,
                  List.length_nil] at *
                omega,
              semP,
              by
                dsimp only [fgHoldsInc, fgTok, poisoned, bgHolds, bgTok,
                  bgExitN, bgPubN, tookCount, pubCount] at *
                try simp only [List.length_append, List.length_cons,
                  List.length_nil] at *
                omega,
              by
                dsimp only [fgHoldsInc, fgTok, poisoned, bgHolds, bgTok,
                  bgExitN, bgPubN, tookCount, pubCount] at *
                try simp only [List.length_append, List.length_cons,
                  List.length_nil] at *
                omega,
              bgh, bgh2,
              by simp,
              by intro mb' hor; simp at hor; subst hor; exact ⟨hget, hdrop.symm⟩,
              by simp, by simp, fun _ => hc1, by simp,
              by simpa using eoieq, chk, by simp⟩
  | trWaitReadyFull mb =>
      simp only [fgStep] at h
      split at h <;> rename_i hpF
      · exact absurd h (by simp)
      · simp only [Option.some.injEq] at h
        subst h
        obtain ⟨hget, hdrop⟩ := subt mb (Or.inl rfl)
        exact ⟨tr_eq, rdy_eq, ince, npe,
          by
                dsimp only [fgHoldsInc, fgTok, poisoned, bgHolds, bgTok,
                  bgExitN, bgPubN, tookCount, pubCount] at *
                try simp only [List.length_append, List.length_cons,
                  List.length_nil] at *
                omega,
          semP,
          by
                dsimp only [fgHoldsInc, fgTok, poisoned, bgHolds, bgTok,
                  bgExitN, bgPubN, tookCount, pubCount] at *
                try simp only [List.length_append, List.length_cons,
                  List.length_nil] at *
                omega,
          by
                dsimp only [fgHoldsInc, fgTok, poisoned, bgHolds, bgTok,
                  bgExitN, bgPubN, tookCount, pubCount] at *
                try simp only [List.length_append, List.length_cons,
                  List.length_nil] at *
                omega,
          bgh, bgh2,
          by simp,
          by intro mb' hor; simp at hor; subst hor; exact ⟨hget, hdrop⟩,
          by simp, by simp,
          fun _ => cwait (Or.inl ⟨mb, Or.inl rfl⟩), by simp,
          by simpa using eoieq, chk, by simp⟩
  | trConsume mb =>
      simp only [fgStep] at h
      cases hrdy : rdy with
      | nil => rw [hrdy] at h; exact absurd h (by simp)
      | cons p rrest =>
          rw [hrdy] at h
          simp only [Option.some.injEq] at h
          subst h
          subst hrdy
          rcases rdy_eq with hempty | ⟨mb', hget', hr⟩
          · exact absurd hempty (by simp)
          · simp only [List.cons.injEq] at hr
            obtain ⟨hp, hrr⟩ := hr
            subst hp
            subst hrr
            obtain ⟨hget, hdrop⟩ := subt mb (Or.inr (Or.inl rfl))
            have hcw : tr.length + 1 = np := cwait (Or.inl ⟨mb, Or.inr rfl⟩)
            exact ⟨
              by simp [take_getElem_succ ms tr.length mb' hget', ← tr_eq],
              Or.inl rfl,
              by simpa [tookCount, pubCount] using ince,
              by
                dsimp only [fgHoldsInc, fgTok, poisoned, bgHolds, bgTok,
                  bgExitN, bgPubN, tookCount, pubCount] at *
                try simp only [List.length_append, List.length_cons,
                  List.length_nil] at *
                omega,
              by
                dsimp only [fgHoldsInc, fgTok, poisoned, bgHolds, bgTok,
                  bgExitN, bgPubN, tookCount, pubCount] at *
                try simp only [List.length_append, List.length_cons,
                  List.length_nil] at *
                omega,
              by
                dsimp only [fgHoldsInc, fgTok, poisoned, bgHolds, bgTok,
                  bgExitN, bgPubN, tookCount, pubCount] at *
                try simp only [List.length_append, List.length_cons,
                  List.length_nil] at *
                omega,
              by
                dsimp only [fgHoldsInc, fgTok, poisoned, bgHolds, bgTok,
                  bgExitN, bgPubN, tookCount, pubCount] at *
                try simp only [List.length_append, List.length_cons,
                  List.length_nil] at *
                omega,
              by
                dsimp only [fgHoldsInc, fgTok, poisoned, bgHolds, bgTok,
                  bgExitN, bgPubN, tookCount, pubCount] at *
                try simp only [List.length_append, List.length_cons,
                  List.length_nil] at *
                omega,
              by simpa [pubCount] using bgh,
              by simpa [pubCount] using bgh2,
              by simp,
              by intro mb' hor; simp at hor; subst hor; exact ⟨hget, hdrop⟩,
              by simp, by simp, by simp,
              fun _ => by simp; omega,
              by simpa using eoieq, chk, by simp⟩
  | trWaitIncEmpty mb =>
      simp only [fgStep] at h
      split at h <;> rename_i hcE
      · exact absurd h (by simp)
      · simp only [Option.some.injEq] at h
        subst h
        obtain ⟨hget, hdrop⟩ := subt mb (Or.inr (Or.inr (Or.inl rfl)))
        exact ⟨tr_eq, rdy_eq, ince, npe,
          by
                dsimp only [fgHoldsInc, fgTok, poisoned, bgHolds, bgTok,
                  bgExitN, bgPubN, tookCount, pubCount] at *
                try simp only [List.length_append, List.length_cons,
                  List.length_nil] at *
                omega,
          semP,
          by
                dsimp only [fgHoldsInc, fgTok, poisoned, bgHolds, bgTok,
                  bgExitN, bgPubN, tookCount, pubCount] at *
                try simp only [List.length_append, List.length_cons,
                  List.length_nil] at *
                omega,
          by
                dsimp only [fgHoldsInc, fgTok, poisoned, bgHolds, bgTok,
                  bgExitN, bgPubN, tookCount, pubCount] at *
                try simp only [List.length_append, List.length_cons,
                  List.length_nil] at *
                omega,
          bgh, bgh2,
          by simp,
          by intro mb' hor; simp at hor; subst hor; exact ⟨hget, hdrop⟩,
          by simp, by simp, by simp,
          fun _ => cput (Or.inl ⟨mb, Or.inl rfl⟩),
          by simpa using eoieq, chk, by simp⟩
  | trPut mb =>
      simp only [fgStep, Option.some.injEq] at h
      subst h
      obtain ⟨hget, hdrop⟩ := subt mb (Or.inr (Or.inr (Or.inr rfl)))
      have hinc0 : inc = [] := by
        simp only [fgHoldsInc] at semC
        exact List.length_eq_zero.mp (by omega)
      have hcp : tr.length = np := cput (Or.inl ⟨mb, Or.inr rfl⟩)
      have hidx : tr.length + rdy.length + bgHolds bg = np := by
        have hnpe := npe
        simp only [tookCount, pubCount, hinc0, List.length_nil] at hnpe
        omega
      exact ⟨tr_eq, rdy_eq,
        Or.inr ⟨mb,
          by show ms[tr.length + rdy.length + bgHolds bg]? = some mb
             rw [hidx]; exact hget,
          by simp [hinc0]⟩,
        by
                dsimp only [fgHoldsInc, fgTok, poisoned, bgHolds, bgTok,
                  bgExitN, bgPubN, tookCount, pubCount] at *
                try simp only [List.length_append, List.length_cons,
                  List.length_nil, hinc0] at *
                omega,
        by
                dsimp only [fgHoldsInc, fgTok, poisoned, bgHolds, bgTok,
                  bgExitN, bgPubN, tookCount, pubCount] at *
                try simp only [List.length_append, List.length_cons,
                  List.length_nil, hinc0] at *
                omega,
        semP,
        by
                dsimp only [fgHoldsInc, fgTok, poisoned, bgHolds, bgTok,
                  bgExitN, bgPubN, tookCount, pubCount] at *
                try simp only [List.length_append, List.length_cons,
                  List.length_nil] at *
                omega,
        by
                dsimp only [fgHoldsInc, fgTok, poisoned, bgHolds, bgTok,
                  bgExitN, bgPubN, tookCount, pubCount] at *
                try simp only [List.length_append, List.length_cons,
                  List.length_nil] at *
                omega,
        bgh, bgh2,
        fun _ => ⟨hdrop, by
          show np + 1 ≤ ms.length
          have := getElem_lt_length ms np mb hget
          omega⟩,
        by simp, by simp,
        fun _ => Or.inl (by show tr.length + 1 = np + 1; omega),
        by simp, by simp,
        by simpa using eoieq,
        fun _ => Or.inl (by simp),
        by simp⟩
  | fiSetEoi =>
      simp only [fgStep, Option.some.injEq] at h
      subst h
      exact ⟨tr_eq, rdy_eq, ince, npe,
        by
                dsimp only [fgHoldsInc, fgTok, poisoned, bgHolds, bgTok,
                  bgExitN, bgPubN, tookCount, pubCount] at *
                try simp only [List.length_append, List.length_cons,
                  List.length_nil] at *
                omega,
        semP,
        by
                dsimp only [fgHoldsInc, fgTok, poisoned, bgHolds, bgTok,
                  bgExitN, bgPubN, tookCount, pubCount] at *
                try simp only [List.length_append, List.length_cons,
                  List.length_nil] at *
                omega,
        by
                dsimp only [fgHoldsInc, fgTok, poisoned, bgHolds, bgTok,
                  bgExitN, bgPubN, tookCount, pubCount] at *
                try simp only [List.length_append, List.length_cons,
                  List.length_nil] at *
                omega,
        bgh, bgh2,
        by simp, by simp,
        fun _ => subf (Or.inl rfl),
        fun _ => cpre (Or.inr (Or.inl rfl)), by simp, by simp,
        by simp, fun _ => Or.inr rfl, by simp⟩
  | fiPoison =>
      simp only [fgStep, Option.some.injEq] at h
      by_cases hnp : np = 0
      · rw [if_pos hnp] at h
        subst h
        exact ⟨tr_eq, rdy_eq, ince, npe,
          by
                dsimp only [fgHoldsInc, fgTok, poisoned, bgHolds, bgTok,
                  bgExitN, bgPubN, tookCount, pubCount] at *
                try simp only [List.length_append, List.length_cons,
                  List.length_nil] at *
                omega,
          semP,
          by
                dsimp only [fgHoldsInc, fgTok, poisoned, bgHolds, bgTok,
                  bgExitN, bgPubN, tookCount, pubCount] at *
                try simp only [List.length_append, List.length_cons,
                  List.length_nil] at *
                omega,
          by
                dsimp only [fgHoldsInc, fgTok, poisoned, bgHolds, bgTok,
                  bgExitN, bgPubN, tookCount, pubCount] at *
                try simp only [List.length_append, List.length_cons,
                  List.length_nil] at *
                omega,
          bgh, bgh2,
          by simp, by simp,
          fun _ => subf (Or.inr (Or.inl rfl)),
          by simp, by simp,
          fun _ => by
            rcases cpre (Or.inr (Or.inr rfl)) with hx | hx <;>
              show tr.length = np <;> omega,
          by simpa using eoieq, chk, by simp⟩
      · rw [if_neg hnp] at h
        subst h
        exact ⟨tr_eq, rdy_eq, ince, npe,
          by
                dsimp only [fgHoldsInc, fgTok, poisoned, bgHolds, bgTok,
                  bgExitN, bgPubN, tookCount, pubCount] at *
                try simp only [List.length_append, List.length_cons,
                  List.length_nil] at *
                omega,
          semP,
          by
                dsimp only [fgHoldsInc, fgTok, poisoned, bgHolds, bgTok,
                  bgExitN, bgPubN, tookCount, pubCount] at *
                try simp only [List.length_append, List.length_cons,
                  List.length_nil] at *
                omega,
          by
                dsimp only [fgHoldsInc, fgTok, poisoned, bgHolds, bgTok,
                  bgExitN, bgPubN, tookCount, pubCount] at *
                try simp only [List.length_append, List.length_cons,
                  List.length_nil] at *
                omega,
          bgh, bgh2,
          by simp, by simp,
          fun _ => subf (Or.inr (Or.inl rfl)),
          by simp,
          fun _ => by
            rcases cpre (Or.inr (Or.inr rfl)) with hx | hx <;>
              show tr.length + 1 = np <;> omega,
          by simp,
          by simpa using eoieq, chk, by simp⟩
  | fiWaitReadyFull =>
      simp only [fgStep] at h
      split at h <;> rename_i hpF
      · exact absurd h (by simp)
      · simp only [Option.some.injEq] at h
        subst h
        exact ⟨tr_eq, rdy_eq, ince, npe,
          by
                dsimp only [fgHoldsInc, fgTok, poisoned, bgHolds, bgTok,
                  bgExitN, bgPubN, tookCount, pubCount] at *
                try simp only [List.length_append, List.length_cons,
                  List.length_nil] at *
                omega,
          semP,
          by
                dsimp only [fgHoldsInc, fgTok, poisoned, bgHolds, bgTok,
                  bgExitN, bgPubN, tookCount, pubCount] at *
                try simp only [List.length_append, List.length_cons,
                  List.length_nil] at *
                omega,
          by
                dsimp only [fgHoldsInc, fgTok, poisoned, bgHolds, bgTok,
                  bgExitN, bgPubN, tookCount, pubCount] at *
                try simp only [List.length_append, List.length_cons,
                  List.length_nil] at *
                omega,
          bgh, bgh2,
          by simp, by simp,
          fun _ => subf (Or.inr (Or.inr (Or.inl rfl))),
          by simp,
          fun _ => cwait (Or.inr (Or.inl rfl)), by simp,
          by simpa using eoieq, chk, by simp⟩
  | fiConsume =>
      simp only [fgStep] at h
      cases hrdy : rdy with
      | nil => rw [hrdy] at h; exact absurd h (by simp)
      | cons p rrest =>
          rw [hrdy] at h
          simp only [Option.some.injEq] at h
          subst h
          subst hrdy
          rcases rdy_eq with hempty | ⟨mb', hget', hr⟩
          · exact absurd hempty (by simp)
          · simp only [List.cons.injEq] at hr
            obtain ⟨hp, hrr⟩ := hr
            subst hp
            subst hrr
            have hcw : tr.length + 1 = np := cwait (Or.inr (Or.inr rfl))
            exact ⟨
              by simp [take_getElem_succ ms tr.length mb' hget', ← tr_eq],
              Or.inl rfl,
              by simpa [tookCount, pubCount] using ince,
              by
                dsimp only [fgHoldsInc, fgTok, poisoned, bgHolds, bgTok,
                  bgExitN, bgPubN, tookCount, pubCount] at *
                try simp only [List.length_append, List.length_cons,
                  List.length_nil] at *
                omega,
              by
                dsimp only [fgHoldsInc, fgTok, poisoned, bgHolds, bgTok,
                  bgExitN, bgPubN, tookCount, pubCount] at *
                try simp only [List.length_append, List.length_cons,
                  List.length_nil] at *
                omega,
              by
                dsimp only [fgHoldsInc, fgTok, poisoned, bgHolds, bgTok,
                  bgExitN, bgPubN, tookCount, pubCount] at *
                try simp only [List.length_append, List.length_cons,
                  List.length_nil] at *
                omega,
              by
                dsimp only [fgHoldsInc, fgTok, poisoned, bgHolds, bgTok,
                  bgExitN, bgPubN, tookCount, pubCount] at *
                try simp only [List.length_append, List.length_cons,
                  List.length_nil] at *
                omega,
              by
                dsimp only [fgHoldsInc, fgTok, poisoned, bgHolds, bgTok,
                  bgExitN, bgPubN, tookCount, pubCount] at *
                try simp only [List.length_append, List.length_cons,
                  List.length_nil] at *
                omega,
              by simpa [pubCount] using bgh,
              by simpa [pubCount] using bgh2,
              by simp, by simp,
              fun _ => subf (Or.inr (Or.inr (Or.inr (Or.inl rfl)))),
              by simp, by simp,
              fun _ => by simp; omega,
              by simpa using eoieq, chk, by simp⟩
  | fiJoin =>
      simp only [fgStep] at h
      split at h <;> rename_i hbg
      · simp only [Option.some.injEq] at h
        subst h
        exact ⟨tr_eq, rdy_eq, ince, npe,
          by
                dsimp only [fgHoldsInc, fgTok, poisoned, bgHolds, bgTok,
                  bgExitN, bgPubN, tookCount, pubCount] at *
                try simp only [List.length_append, List.length_cons,
                  List.length_nil] at *
                omega,
          semP,
          by
                dsimp only [fgHoldsInc, fgTok, poisoned, bgHolds, bgTok,
                  bgExitN, bgPubN, tookCount, pubCount] at *
                try simp only [List.length_append, List.length_cons,
                  List.length_nil] at *
                omega,
          by
                dsimp only [fgHoldsInc, fgTok, poisoned, bgHolds, bgTok,
                  bgExitN, bgPubN, tookCount, pubCount] at *
                try simp only [List.length_append, List.length_cons,
                  List.length_nil] at *
                omega,
          bgh, bgh2,
          by simp, by simp,
          fun _ => subf (Or.inr (Or.inr (Or.inr (Or.inr (Or.inl rfl))))),
          by simp, by simp,
          fun _ => cput (Or.inr (Or.inl rfl)),
          by simpa using eoieq, chk,
          fun _ => hbg⟩
      · exact absurd h (by simp)
  | done => exact absurd h (by simp [fgStep])

theorem inv_bgStep (d : Nat → Nat) (ms : List Nat) (s t : TState)
    (hI : PipeInv d ms s) (h : bgStep d s = some t) : PipeInv d ms t := by
  obtain ⟨tr_eq, rdy_eq, ince, npe, semC, semP, semPF, semCF, bgh, bgh2,
    subi, subt, subf, cpre, cwait, cput, eoieq, chk, dex⟩ := hI
  obtain ⟨sub, fg, bg, inc, rdy, cF, cE, pF, pE, eo, np, tr⟩ := s
  dsimp only at *
  cases bg with
  | waitFull =>
      simp only [bgStep] at h
      split at h <;> rename_i hcF
      · exact absurd h (by simp)
      · simp only [Option.some.injEq] at h
        subst h
        exact ⟨tr_eq, rdy_eq, ince, npe, semC,
          by
                dsimp only [fgHoldsInc, fgTok, poisoned, bgHolds, bgTok,
                  bgExitN, bgPubN, tookCount, pubCount] at *
                omega,
          semPF,
          by
                dsimp only [fgHoldsInc, fgTok, poisoned, bgHolds, bgTok,
                  bgExitN, bgPubN, tookCount, pubCount] at *
                omega,
          by simp, by simp,
          subi, subt, subf, cpre, cwait, cput, eoieq,
          fun _ => by
            by_cases hinc : inc = []
            · right
              have hlen : inc.length = 0 := by simp [hinc]
              have hpois : 1 ≤ poisoned fg := by
                dsimp only [bgHolds, bgTok, bgExitN, tookCount, pubCount]
                  at semCF npe
                omega
              rw [eoieq]
              exact poisoned_eoiRegion fg hpois
            · exact Or.inl hinc,
          fun hd => absurd (dex hd) (by simp)⟩
  | check =>
      simp only [bgStep] at h
      cases hinc : inc with
      | cons mb rest =>
          rw [hinc] at h
          simp only [Option.some.injEq] at h
          subst h
          subst hinc
          rcases ince with hbad | ⟨mb0, hg0, he0⟩
          · exact absurd hbad (by simp)
          · simp only [List.cons.injEq] at he0
            obtain ⟨hm0, hr0⟩ := he0
            subst hm0
            subst hr0
            exact ⟨tr_eq, rdy_eq, Or.inl rfl,
              by
                dsimp only [fgHoldsInc, fgTok, poisoned, bgHolds, bgTok,
                  bgExitN, bgPubN, tookCount, pubCount] at *
                try simp only [List.length_cons, List.length_nil] at *
                omega,
              by
                dsimp only [fgHoldsInc, fgTok, poisoned, bgHolds, bgTok,
                  bgExitN, bgPubN, tookCount, pubCount] at *
                try simp only [List.length_cons, List.length_nil] at *
                omega,
              by
                dsimp only [fgHoldsInc, fgTok, poisoned, bgHolds, bgTok,
                  bgExitN, bgPubN, tookCount, pubCount] at *
                omega,
              semPF,
              by
                dsimp only [fgHoldsInc, fgTok, poisoned, bgHolds, bgTok,
                  bgExitN, bgPubN, tookCount, pubCount] at *
                try simp only [List.length_cons, List.length_nil] at *
                omega,
              by
                intro mb2 hc
                simp only [BgPC.compute.injEq] at hc
                subst hc
                simpa [tookCount, pubCount] using hg0,
              by simp,
              subi, subt, subf, cpre, cwait, cput, eoieq,
              by simp,
              fun hd => absurd (dex hd) (by simp)⟩
      | nil =>
          rw [hinc] at h
          subst hinc
          have heo : eo = true := by
            rcases chk rfl with hx | hx
            · exact absurd rfl hx
            · exact hx
          rw [heo] at h
          simp only [if_pos] at h
          simp only [Option.some.injEq] at h
          subst h
          exact ⟨tr_eq, rdy_eq, Or.inl rfl, npe, semC, semP, semPF,
            by
                dsimp only [fgHoldsInc, fgTok, poisoned, bgHolds, bgTok,
                  bgExitN, bgPubN, tookCount, pubCount] at *
                omega,
            by simp, by simp,
            subi, subt, subf, cpre, cwait, cput,
            by simpa [heo] using eoieq,
            by simp,
            fun _ => rfl⟩
  | compute mb =>
      simp only [bgStep, Option.some.injEq] at h
      subst h
      exact ⟨tr_eq, rdy_eq, ince, npe, semC, semP, semPF,
        by
                dsimp only [fgHoldsInc, fgTok, poisoned, bgHolds, bgTok,
                  bgExitN, bgPubN, tookCount, pubCount] at *
                omega,
        by simp,
        by
          intro mb2 dd2 hor
          rcases hor with hc | hc
          · simp only [BgPC.waitEmpty.injEq] at hc
            obtain ⟨h1, h2⟩ := hc
            subst h1
            subst h2
            exact ⟨bgh mb rfl, rfl⟩
          · exact absurd hc (by simp),
        subi, subt, subf, cpre, cwait, cput, eoieq,
        by simp,
        fun hd => absurd (dex hd) (by simp)⟩
  | waitEmpty mb dd =>
      simp only [bgStep] at h
      split at h <;> rename_i hpE
      · exact absurd h (by simp)
      · simp only [Option.some.injEq] at h
        subst h
        exact ⟨tr_eq, rdy_eq, ince, npe, semC,
          by
                dsimp only [fgHoldsInc, fgTok, poisoned, bgHolds, bgTok,
                  bgExitN, bgPubN, tookCount, pubCount] at *
                omega,
          semPF,
          by
                dsimp only [fgHoldsInc, fgTok, poisoned, bgHolds, bgTok,
                  bgExitN, bgPubN, tookCount, pubCount] at *
                omega,
          by simp,
          by
            intro mb2 dd2 hor
            rcases hor with hc | hc
            · exact absurd hc (by simp)
            · simp only [BgPC.publish.injEq] at hc
              obtain ⟨h1, h2⟩ := hc
              subst h1
              subst h2
              exact bgh2 mb dd (Or.inl rfl),
          subi, subt, subf, cpre, cwait, cput, eoieq,
          by simp,
          fun hd => absurd (dex hd) (by simp)⟩
  | publish mb dd =>
      simp only [bgStep, Option.some.injEq] at h
      subst h
      obtain ⟨hgp, hdd⟩ := bgh2 mb dd (Or.inr rfl)
      have hrdy0 : rdy = [] := by
        have hsp := semP
        dsimp only [bgPubN] at hsp
        exact List.length_eq_zero.mp (by omega)
      exact ⟨tr_eq,
        Or.inr ⟨mb, by simpa [pubCount, hrdy0] using hgp,
          by simp [hrdy0, hdd]⟩,
        by simpa [tookCount, pubCount, hrdy0] using ince,
        by
                dsimp only [fgHoldsInc, fgTok, poisoned, bgHolds, bgTok,
                  bgExitN, bgPubN, tookCount, pubCount] at *
                try simp only [List.length_append, List.length_cons,
                  List.length_nil] at *
                omega,
        semC,
        by
                dsimp only [fgHoldsInc, fgTok, poisoned, bgHolds, bgTok,
                  bgExitN, bgPubN, tookCount, pubCount] at *
                try simp only [List.length_append, List.length_cons,
                  List.length_nil] at *
                omega,
        by
                dsimp only [fgHoldsInc, fgTok, poisoned, bgHolds, bgTok,
                  bgExitN, bgPubN, tookCount, pubCount] at *
                try simp only [List.length_append, List.length_cons,
                  List.length_nil] at *
                omega,
        by
                dsimp only [fgHoldsInc, fgTok, poisoned, bgHolds, bgTok,
                  bgExitN, bgPubN, tookCount, pubCount] at *
                try simp only [List.length_append, List.length_cons,
                  List.length_nil] at *
                omega,
        by simp, by simp,
        subi, subt, subf, cpre, cwait, cput, eoieq,
        by simp,
        fun hd => absurd (dex hd) (by simp)⟩
  | exited => exact absurd h (by simp [bgStep])

theorem inv_reachable (d : Nat → Nat) (ms : List Nat) (s : TState)
    (h : Reachable d ms s) : PipeInv d ms s := by
  induction h with
  | refl => exact inv_init d ms
  | tail hab hbc ih =>
      rcases hbc with hf | hb
      · exact inv_fgStep d ms _ _ ih hf
      · exact inv_bgStep d ms _ _ ih hb

theorem reachable_done_trace (d : Nat → Nat) (ms : List Nat) (s : TState)
    (h : Reachable d ms s) (hdone : s.fg = .done) :
    s.trace = ms.map (fun m => (m, d m)) := by
  have hI := inv_reachable d ms s h
  have hnp : s.nproc = ms.length := (hI.sub_fin (by simp [hdone])).2
  have hlen : s.trace.length = s.nproc :=
    hI.cnt_put (by simp [hdone])
  have := hI.trace_eq
  rw [hlen, hnp, List.take_length] at this
  exact this

/-- The foreground context holds write access to the Incoming slot: it has
acquired `current_minibatch_empty_` and not yet signalled
`current_minibatch_full_`. -/
def fgWritesIncoming (s : TState) : Prop := ∃ mb, s.fg = .trPut mb

/-- The background context holds write access to the Incoming slot: it woke
up on `current_minibatch_full_` with a payload present and has not yet
signalled `current_minibatch_empty_`. -/
def bgWritesIncoming (s : TState) : Prop := s.bg = .check ∧ s.incoming ≠ []

/-- The foreground context holds write access to the Ready slot: it has
acquired `previous_minibatch_full_` and not yet signalled
`previous_minibatch_empty_`. -/
def fgWritesReady (s : TState) : Prop :=
  (∃ mb, s.fg = .trConsume mb) ∨ s.fg = .fiConsume

/-- The background context holds write access to the Ready slot: it has
acquired `previous_minibatch_empty_` and not yet signalled
`previous_minibatch_full_`. -/
def bgWritesReady (s : TState) : Prop := ∃ mb dd, s.bg = .publish mb dd

theorem runFrom_start (d : Nat → Nat) (mb : Nat) (rest : List Nat) :
    runFrom d 3 (initState (mb :: rest)) = midState d [] mb rest := by
  simp [runFrom, schedStep, fgStep, bgStep, initState, midState]

theorem runFrom_round (d : Nat → Nat) (pre : List Nat) (cur mb : Nat)
    (rest : List Nat) :
    runFrom d 10 (midState d pre cur (mb :: rest)) =
      midState d (pre ++ [cur]) mb rest := by
  simp [runFrom, schedStep, fgStep, bgStep, midState]

theorem runFrom_finish (d : Nat → Nat) (pre : List Nat) (cur : Nat) :
    runFrom d 13 (midState d pre cur []) = doneState d (pre ++ [cur]) := by
  simp [runFrom, schedStep, fgStep, bgStep, midState, doneState]

theorem runFrom_nil (d : Nat → Nat) :
    runFrom d 6 (initState []) = doneState d [] := by
  simp [runFrom, schedStep, fgStep, bgStep, initState, doneState]

theorem mid_done (d : Nat → Nat) (rest : List Nat) :
    ∀ (pre : List Nat) (cur : Nat),
      runFrom d (10 * rest.length + 13) (midState d pre cur rest) =
        doneState d (pre ++ cur :: rest) := by
  induction rest with
  | nil =>
      intro pre cur
      simpa using runFrom_finish d pre cur
  | cons mb rest ih =>
      intro pre cur
      have hn : 10 * (mb :: rest).length + 13 = 10 + (10 * rest.length + 13) := by
        simp [List.length_cons]; omega
      rw [hn, runFrom_add, runFrom_round]
      rw [ih (pre ++ [cur]) mb]
      simp

theorem pipeline_completes (d : Nat → Nat) (ms : List Nat) :
    runFrom d (10 * ms.length + 6) (initState ms) = doneState d ms := by
  cases ms with
  | nil => simpa using runFrom_nil d
  | cons mb rest =>
      have hn : 10 * (mb :: rest).length + 6 = 3 + (10 * rest.length + 13) := by
        simp [List.length_cons]; omega
      rw [hn, runFrom_add, runFrom_start]
      simpa using mid_done d rest [] mb

/-- C1: for every sequence of N minibatches submitted via Train() followed by
the destructor (finalize), CoreTrainer is invoked exactly N times, once per
submitted minibatch, in exactly submission order, with no minibatch trained
twice or dropped, including the last one: the canonical execution reaches the
fully wound-down state whose CoreTrainer trace is exactly the submission
sequence, and every interleaving that reaches the joined (`done`) state has
that same trace. -/
theorem C1_trained_in_submission_order_exactly_once (d : Nat → Nat)
    (ms : List Nat) :
    runFrom d (10 * ms.length + 6) (initState ms) = doneState d ms ∧
    (∀ s : TState, Reachable d ms s → s.fg = .done →
      s.trace = ms.map (fun m => (m, d m))) := by
  refine ⟨pipeline_completes d ms, ?_⟩
  intro s hr hdone
  exact reachable_done_trace d ms s hr hdone

theorem C1_witness :
    (runFrom (fun m => m + 1) 26 (initState [3, 4])).trace =
      [(3, 4), (4, 5)] := by
  have h := C1_trained_in_submission_order_exactly_once (fun m => m + 1) [3, 4]
  exact h.2 _ (runFrom_reachable (fun m => m + 1) [3, 4] 26) (by decide)

/-- C2: the minibatch submitted at the k-th Train() call is trained during
the (k+1)-th Train() call (whenever the Trainer performs the CoreTrainer
invocation of a Train() call, the pair it consumes is the one for the
previous submission), or during finalize when no further call occurs; the
very first Train() call invokes no training step at all (after it completes
the trace is still empty), skipping the take-from-Ready sub-step exactly on
the first call (`num_minibatches_processed_ = 0`) and on no other. -/
theorem C2_one_call_of_lookahead (d : Nat → Nat) (ms : List Nat) :
    (∀ s mb, Reachable d ms s → s.fg = .trConsume mb →
      1 ≤ s.nproc ∧ ∃ prev, ms[s.nproc - 1]? = some prev ∧
        s.ready = [(prev, d prev)]) ∧
    (∀ s, Reachable d ms s → s.fg = .fiConsume →
      s.nproc = ms.length ∧ ∃ prev, ms[s.nproc - 1]? = some prev ∧
        s.ready = [(prev, d prev)]) ∧
    (∀ s, Reachable d ms s → s.fg = .idle → s.nproc ≤ 1 → s.trace = []) ∧
    (∀ s mb rest, s.fg = .idle → s.sub = mb :: rest → s.nproc = 0 →
      fgStep s = some { s with fg := .trWaitIncEmpty mb, sub := rest }) ∧
    (∀ s mb rest, s.fg = .idle → s.sub = mb :: rest → s.nproc ≠ 0 →
      fgStep s = some { s with fg := .trWaitReadyFull mb, sub := rest }) := by
  refine ⟨?_, ?_, ?_, ?_, ?_⟩
  · intro s mb hr hfg
    have hI := inv_reachable d ms s hr
    have hcw : s.trace.length + 1 = s.nproc :=
      hI.cnt_wait (Or.inl ⟨mb, Or.inr hfg⟩)
    have hlen : 1 ≤ s.ready.length := by
      have := hI.semPF
      rw [hfg] at this
      simp only [fgTok] at this
      omega
    rcases hI.ready_eq with hx | ⟨prev, hget, hrdy⟩
    · rw [hx] at hlen; simp at hlen
    · refine ⟨by omega, prev, ?_, hrdy⟩
      have : s.nproc - 1 = s.trace.length := by omega
      rw [this]
      exact hget
  · intro s hr hfg
    have hI := inv_reachable d ms s hr
    have hcw : s.trace.length + 1 = s.nproc :=
      hI.cnt_wait (Or.inr (Or.inr hfg))
    have hnp : s.nproc = ms.length := (hI.sub_fin (by simp [hfg])).2
    have hlen : 1 ≤ s.ready.length := by
      have := hI.semPF
      rw [hfg] at this
      simp only [fgTok] at this
      omega
    rcases hI.ready_eq with hx | ⟨prev, hget, hrdy⟩
    · rw [hx] at hlen; simp at hlen
    · refine ⟨hnp, prev, ?_, hrdy⟩
      have : s.nproc - 1 = s.trace.length := by omega
      rw [this]
      exact hget
  · intro s hr hfg hnp
    have hI := inv_reachable d ms s hr
    have : s.trace.length = 0 := by
      rcases hI.cnt_pre (Or.inl hfg) with hx | hx <;> omega
    exact List.eq_nil_of_length_eq_zero this
  · intro s mb rest hfg hsub hnp
    obtain ⟨su, f, b, i, r, c1, c2, p1, p2, e, n, t⟩ := s
    dsimp only at hfg hsub hnp ⊢
    subst hfg
    subst hsub
    simp [fgStep, hnp]
  · intro s mb rest hfg hsub hnp
    obtain ⟨su, f, b, i, r, c1, c2, p1, p2, e, n, t⟩ := s
    dsimp only at hfg hsub hnp ⊢
    subst hfg
    subst hsub
    simp [fgStep, hnp]

theorem C2_witness :
    1 ≤ (runFrom (fun m => m + 100) 10 (initState [5, 6])).nproc ∧
    ∃ prev,
      [5, 6][(runFrom (fun m => m + 100) 10 (initState [5, 6])).nproc - 1]? =
        some prev ∧
      (runFrom (fun m => m + 100) 10 (initState [5, 6])).ready =
        [(prev, prev + 100)] :=
  (C2_one_call_of_lookahead (fun m => m + 100) [5, 6]).1 _ 6
    (runFrom_reachable (fun m => m + 100) [5, 6] 10) (by decide)

/-- C3: finalize (the destructor), called once after the last Train() call,
(i) sets the end-of-input flag (and nothing else), (ii) then signals
Incoming's fullness semaphore once more while leaving the Incoming slot
untouched (a poison wake-up with no payload), (iii) a worker that wakes on
that signal with end-of-input set and no payload exits rather than
deadlocking, (iv) the trainer joins the worker: it can step past `fiJoin`
exactly when the worker has exited, and blocks otherwise, and (v) if exactly
one minibatch was submitted before finalize, the run winds down with
CoreTrainer invoked exactly once, with that minibatch. -/
theorem C3_finalize_effects (d : Nat → Nat) :
    (∀ s : TState, s.fg = .fiSetEoi →
      fgStep s = some { s with fg := .fiPoison, eoi := true }) ∧
    (∀ s : TState, s.fg = .fiPoison →
      fgStep s = some { s with
        fg := if s.nproc = 0 then .fiJoin else .fiWaitReadyFull,
        cFull := s.cFull + 1 }) ∧
    (∀ s : TState, s.bg = .check → s.incoming = [] → s.eoi = true →
      bgStep d s = some { s with bg := .exited }) ∧
    (∀ s : TState, s.fg = .fiJoin → s.bg ≠ .exited → fgStep s = none) ∧
    (∀ s : TState, s.fg = .fiJoin → s.bg = .exited →
      fgStep s = some { s with fg := .done }) ∧
    (∀ mb : Nat, runFrom d 16 (initState [mb]) = doneState d [mb] ∧
      (doneState d [mb]).trace = [(mb, d mb)]) := by
  refine ⟨?_, ?_, ?_, ?_, ?_, ?_⟩
  · intro s hfg
    obtain ⟨su, f, b, i, r, c1, c2, p1, p2, e, n, t⟩ := s
    dsimp only at hfg ⊢
    subst hfg
    simp [fgStep]
  · intro s hfg
    obtain ⟨su, f, b, i, r, c1, c2, p1, p2, e, n, t⟩ := s
    dsimp only at hfg ⊢
    subst hfg
    simp [fgStep]
  · intro s hbg hinc heo
    obtain ⟨su, f, b, i, r, c1, c2, p1, p2, e, n, t⟩ := s
    dsimp only at hbg hinc heo ⊢
    subst hbg
    subst hinc
    subst heo
    simp [bgStep]
  · intro s hfg hbg
    obtain ⟨su, f, b, i, r, c1, c2, p1, p2, e, n, t⟩ := s
    dsimp only at hfg hbg ⊢
    subst hfg
    simp [fgStep, hbg]
  · intro s hfg hbg
    obtain ⟨su, f, b, i, r, c1, c2, p1, p2, e, n, t⟩ := s
    dsimp only at hfg hbg ⊢
    subst hfg
    subst hbg
    simp [fgStep]
  · intro mb
    refine ⟨?_, by simp [doneState]⟩
    have := pipeline_completes d [mb]
    simpa using this

theorem C3_witness :
    fgStep
      { sub := [], fg := .fiSetEoi, bg := .waitFull, incoming := [],
        ready := [], cFull := 0, cEmpty := 1, pFull := 0, pEmpty := 1,
        eoi := false, nproc := 2, trace := [(7, 8)] } =
    some
      { sub := [], fg := .fiPoison, bg := .waitFull, incoming := [],
        ready := [], cFull := 0, cEmpty := 1, pFull := 0, pEmpty := 1,
        eoi := true, nproc := 2, trace := [(7, 8)] } :=
  (C3_finalize_effects (fun m => m)).1 _ rfl

/-- C4: in every reachable state of the pipeline, the Ready slot holds at
most one (minibatch, derived-data) pair, the worker holds at most one
computed-but-unpublished derived datum, the backpressure accounting
`previous_minibatch_empty_` + (Ready occupancy) + (worker publishing) = 1
holds, and whenever the worker is at the Ready-emptiness wait while Ready is
still occupied, the emptiness semaphore is 0 and the worker's step is
disabled: it cannot publish a new pair until the Trainer has consumed the
previous one. -/
theorem C4_ready_occupancy_at_most_one (d : Nat → Nat) (ms : List Nat)
    (s : TState) (mb dd : Nat) (hr : Reachable d ms s) :
    s.ready.length ≤ 1 ∧ bgHolds s.bg ≤ 1 ∧
    s.pEmpty + s.ready.length + bgPubN s.bg = 1 ∧
    (s.bg = .waitEmpty mb dd → s.ready ≠ [] →
      s.pEmpty = 0 ∧ bgStep d s = none) := by
  have hI := inv_reachable d ms s hr
  have hsp := hI.semP
  refine ⟨by omega, ?_, hsp, ?_⟩
  · cases s.bg <;> simp
  · intro hbg hne
    have hlen : 1 ≤ s.ready.length := by
      cases hrd : s.ready with
      | nil => exact absurd hrd hne
      | cons a l => simp [hrd]
    have hpe : s.pEmpty = 0 := by omega
    refine ⟨hpe, ?_⟩
    obtain ⟨su, f, b, i, r, c1, c2, p1, p2, e, n, t⟩ := s
    dsimp only at hbg hpe ⊢
    subst hbg
    subst hpe
    simp [bgStep]

theorem C4_witness :
    (runFrom (fun m => m + 9) 9 (initState [1, 2])).ready.length ≤ 1 ∧
    bgHolds (runFrom (fun m => m + 9) 9 (initState [1, 2])).bg ≤ 1 ∧
    (runFrom (fun m => m + 9) 9 (initState [1, 2])).pEmpty +
      (runFrom (fun m => m + 9) 9 (initState [1, 2])).ready.length +
      bgPubN (runFrom (fun m => m + 9) 9 (initState [1, 2])).bg = 1 ∧
    ((runFrom (fun m => m + 9) 9 (initState [1, 2])).bg = .waitEmpty 0 0 →
      (runFrom (fun m => m + 9) 9 (initState [1, 2])).ready ≠ [] →
      (runFrom (fun m => m + 9) 9 (initState [1, 2])).pEmpty = 0 ∧
      bgStep (fun m => m + 9) (runFrom (fun m => m + 9) 9 (initState [1, 2])) =
        none) :=
  C4_ready_occupancy_at_most_one (fun m => m + 9) [1, 2] _ 0 0
    (runFrom_reachable (fun m => m + 9) [1, 2] 9)

/-- C5: in every worker-loop iteration that carries data, the take from
Incoming and the release of Incoming's emptiness signal happen in the same
atomic step, before the derivation is computed: the step out of the check
location empties the Incoming slot and increments `current_minibatch_empty_`
while the worker is still at the compute location (derivation not yet run),
and the derivation step itself changes only the worker's program counter
(no slot and no semaphore), so the Trainer may enqueue the next submission
concurrently with the derivation. -/
theorem C5_release_incoming_before_derive (d : Nat → Nat) :
    (∀ (s : TState) (mb : Nat) (rest : List Nat),
      s.bg = .check → s.incoming = mb :: rest →
      bgStep d s = some { s with
        bg := .compute mb, incoming := rest, cEmpty := s.cEmpty + 1 }) ∧
    (∀ (s : TState) (mb : Nat), s.bg = .compute mb →
      bgStep d s = some { s with bg := .waitEmpty mb (d mb) }) := by
  constructor
  · intro s mb rest hbg hinc
    obtain ⟨su, f, b, i, r, c1, c2, p1, p2, e, n, t⟩ := s
    dsimp only at hbg hinc ⊢
    subst hbg
    subst hinc
    simp [bgStep]
  · intro s mb hbg
    obtain ⟨su, f, b, i, r, c1, c2, p1, p2, e, n, t⟩ := s
    dsimp only at hbg ⊢
    subst hbg
    simp [bgStep]

theorem C5_witness :
    bgStep (fun m => m * 2)
      { sub := [], fg := .idle, bg := .check, incoming := [4],
        ready := [], cFull := 0, cEmpty := 0, pFull := 0, pEmpty := 1,
        eoi := false, nproc := 1, trace := [] } =
    some
      { sub := [], fg := .idle, bg := .compute 4, incoming := [],
        ready := [], cFull := 0, cEmpty := 1, pFull := 0, pEmpty := 1,
        eoi := false, nproc := 1, trace := [] } :=
  (C5_release_incoming_before_derive (fun m => m * 2)).1 _ 4 [] rfl rfl

/-- C7: immediately after construction of the trainer, both slots (Incoming
and Ready) are empty and each slot's (full, empty) semaphore pair has the
initial values (0, 1); consequently a finalize with zero submitted
minibatches winds the pipeline down completely (6 canonical steps reach the
joined state) with CoreTrainer never invoked and the worker exited, not
deadlocked. -/
theorem C7_initial_semaphores_and_empty_shutdown (d : Nat → Nat)
    (ms : List Nat) :
    (initState ms).incoming = [] ∧ (initState ms).ready = [] ∧
    (initState ms).cFull = 0 ∧ (initState ms).cEmpty = 1 ∧
    (initState ms).pFull = 0 ∧ (initState ms).pEmpty = 1 ∧
    runFrom d 6 (initState []) = doneState d [] ∧
    (doneState d []).trace = [] ∧ (doneState d []).fg = .done ∧
    (doneState d []).bg = .exited :=
  ⟨rfl, rfl, rfl, rfl, rfl, rfl, runFrom_nil d, rfl, rfl, rfl⟩

/-- C8: at no reachable instant do the foreground (Trainer) context and the
background (worker) context both hold write access to the same slot: the
states in which the Trainer holds write access to Incoming (between its
acquisition of the emptiness signal and its fullness signal) are disjoint
from those in which the worker does, and likewise for the Ready slot.  In
the model the only shared mutable state between the two contexts is the two
slots, the four semaphore counters and the end-of-input flag, and no lock is
used: slot ownership is governed entirely by the semaphore values. -/
theorem C8_no_simultaneous_writers (d : Nat → Nat) (ms : List Nat)
    (s : TState) (hr : Reachable d ms s) :
    ¬(fgWritesIncoming s ∧ bgWritesIncoming s) ∧
    ¬(fgWritesReady s ∧ bgWritesReady s) := by
  have hI := inv_reachable d ms s hr
  constructor
  · rintro ⟨⟨mb, hfg⟩, hbg, hne⟩
    have hc := hI.semC
    rw [hfg] at hc
    simp only [fgHoldsInc] at hc
    have : s.incoming.length = 0 := by omega
    exact hne (List.eq_nil_of_length_eq_zero this)
  · rintro ⟨hfgr, ⟨mb, dd, hbg⟩⟩
    have hpf := hI.semPF
    have hsp := hI.semP
    rw [hbg] at hsp
    simp only [bgPubN] at hsp
    have htok : fgTok s.fg = 1 := by
      rcases hfgr with ⟨mb2, hfg2⟩ | hfg2 <;> rw [hfg2] <;> simp
    rw [htok] at hpf
    omega

theorem C8_witness :
    ¬(fgWritesIncoming (runFrom (fun m => m + 9) 9 (initState [1, 2])) ∧
      bgWritesIncoming (runFrom (fun m => m + 9) 9 (initState [1, 2]))) ∧
    ¬(fgWritesReady (runFrom (fun m => m + 9) 9 (initState [1, 2])) ∧
      bgWritesReady (runFrom (fun m => m + 9) 9 (initState [1, 2]))) :=
  C8_no_simultaneous_writers (fun m => m + 9) [1, 2] _
    (runFrom_reachable (fun m => m + 9) [1, 2] 9)

/-- Modelled from the spec (sections 4.3 and 7; no failure handling appears
in the header, whose function bodies are not in the tree): foreground control
locations of the pipeline extended with DerivationFailure propagation.  The
locations up to `fiJoin`/`done` mirror the normal-operation machine; on
consuming a failure marker from Ready the Trainer abandons remaining
submissions, still joins the worker (`failJoin`), and re-raises, ending in
the terminal `failed` location, from which no further Train() call is
accepted. -/
inductive FgF where
  | idle
  | trWaitReadyFull (mb : Nat)
  | trConsume (mb : Nat)
  | trWaitIncEmpty (mb : Nat)
  | trPut (mb : Nat)
  | fiSetEoi
  | fiPoison
  | fiWaitReadyFull
  | fiConsume
  | fiJoin
  | done
  | failJoin
  | failed
  deriving DecidableEq

/-- Modelled from the spec: background control locations with failure: on a
DerivationFailure the worker does not retry; it proceeds to the next
Ready-slot synchronization point (`waitEmptyErr`), publishes a failure
marker there (`publishErr`) so the blocked Trainer is woken rather than
deadlocked, and terminates. -/
inductive BgF where
  | waitFull
  | check
  | compute (mb : Nat)
  | waitEmpty (mb dd : Nat)
  | publish (mb dd : Nat)
  | waitEmptyErr
  | publishErr
  | exited
  deriving DecidableEq

/-- State of the failure-extended pipeline; a Ready entry is `some` pair or
`none` for the failure marker. -/
structure FState where
  sub : List Nat
  fg : FgF
  bg : BgF
  incoming : List Nat
  ready : List (Option (Nat × Nat))
  cFull : Nat
  cEmpty : Nat
  pFull : Nat
  pEmpty : Nat
  eoi : Bool
  nproc : Nat
  trace : List (Nat × Nat)
  deriving DecidableEq

/-- Modelled from the spec: one foreground step of the failure-extended
machine.  Identical to the normal machine except that consuming a failure
marker raises: the Trainer moves to `failJoin`, joins the worker, and ends
`failed`; in `failed` no step (in particular no further submission) is
accepted. -/
def fgStepF (s : FState) : Option FState :=
  match s.fg with
  | .idle =>
      match s.sub with
      | [] => some { s with fg := .fiSetEoi }
      | mb :: rest =>
          if s.nproc = 0 then
            some { s with fg := .trWaitIncEmpty mb, sub := rest }
          else
            some { s with fg := .trWaitReadyFull mb, sub := rest }
  | .trWaitReadyFull mb =>
      if s.pFull = 0 then none
      else some { s with fg := .trConsume mb, pFull := s.pFull - 1 }
  | .trConsume mb =>
      match s.ready with
      | [] => none
      | some p :: rest =>
          some { s with
                   fg := .trWaitIncEmpty mb, ready := rest,
                   trace := s.trace ++ [p], pEmpty := s.pEmpty + 1 }
      | none :: rest =>
          some { s with
                   fg := .failJoin, ready := rest,
                   pEmpty := s.pEmpty + 1 }
  | .trWaitIncEmpty mb =>
      if s.cEmpty = 0 then none
      else some { s with fg := .trPut mb, cEmpty := s.cEmpty - 1 }
  | .trPut mb =>
      some { s with
               fg := .idle, incoming := s.incoming ++ [mb],
               nproc := s.nproc + 1, cFull := s.cFull + 1 }
  | .fiSetEoi => some { s with fg := .fiPoison, eoi := true }
  | .fiPoison =>
      some { s with
               fg := if s.nproc = 0 then .fiJoin else .fiWaitReadyFull,
               cFull := s.cFull + 1 }
  | .fiWaitReadyFull =>
      if s.pFull = 0 then none
      else some { s with fg := .fiConsume, pFull := s.pFull - 1 }
  | .fiConsume =>
      match s.ready with
      | [] => none
      | some p :: rest =>
          some { s with
                   fg := .fiJoin, ready := rest,
                   trace := s.trace ++ [p], pEmpty := s.pEmpty + 1 }
      | none :: rest =>
          some { s with
                   fg := .failJoin, ready := rest,
                   pEmpty := s.pEmpty + 1 }
  | .fiJoin =>
      if s.bg = .exited then some { s with fg := .done } else none
  | .failJoin =>
      if s.bg = .exited then some { s with fg := .failed } else none
  | .failed => none
  | .done => none

/-- Modelled from the spec: one background step of the failure-extended
machine, with a fallible derivation `dF`.  A failed derivation is not
retried: the worker heads for the Ready synchronization point, publishes the
failure marker (still signalling `previous_minibatch_full_`, so the Trainer
is unblocked rather than deadlocked), and terminates. -/
def bgStepF (dF : Nat → Option Nat) (s : FState) : Option FState :=
  match s.bg with
  | .waitFull =>
      if s.cFull = 0 then none
      else some { s with bg := .check, cFull := s.cFull - 1 }
  | .check =>
      match s.incoming with
      | mb :: rest =>
          some { s with
                   bg := .compute mb, incoming := rest,
                   cEmpty := s.cEmpty + 1 }
      | [] =>
          if s.eoi then some { s with bg := .exited }
          else some { s with bg := .waitFull }
  | .compute mb =>
      match dF mb with
      | some dd => some { s with bg := .waitEmpty mb dd }
      | none => some { s with bg := .waitEmptyErr }
  | .waitEmpty mb dd =>
      if s.pEmpty = 0 then none
      else some { s with bg := .publish mb dd, pEmpty := s.pEmpty - 1 }
  | .publish mb dd =>
      some { s with
               bg := .waitFull, ready := s.ready ++ [some (mb, dd)],
               pFull := s.pFull + 1 }
  | .waitEmptyErr =>
      if s.pEmpty = 0 then none
      else some { s with bg := .publishErr, pEmpty := s.pEmpty - 1 }
  | .publishErr =>
      some { s with
               bg := .exited, ready := s.ready ++ [none],
               pFull := s.pFull + 1 }
  | .exited => none

/-- Initial state of the failure-extended machine. -/
def initStateF (ms : List Nat) : FState :=
  { sub := ms, fg := .idle, bg := .waitFull, incoming := [], ready := [],
    cFull := 0, cEmpty := 1, pFull := 0, pEmpty := 1,
    eoi := false, nproc := 0, trace := [] }

/-- Canonical deterministic scheduler of the failure-extended machine. -/
def schedStepF (dF : Nat → Option Nat) (s : FState) : FState :=
  match fgStepF s with
  | some t => t
  | none =>
      match bgStepF dF s with
      | some t => t
      | none => s

/-- Run `n` canonical steps of the failure-extended machine. -/
def runFromF (dF : Nat → Option Nat) : Nat → FState → FState
  | 0, s => s
  | n + 1, s => runFromF dF n (schedStepF dF s)

/-- C6: a DerivationFailure on minibatch k is not retried: the worker moves
to the error path at once, and at the next Ready-slot synchronization point
it still signals `previous_minibatch_full_` (publishing a failure marker)
before terminating, so the blocked Trainer wakes rather than deadlocking;
the Train() call that takes the marker raises (moves to the fail path
without invoking CoreTrainer), the worker is still cleanly joined (the
trainer passes `failJoin` exactly when the worker has exited) and afterwards
no further Train() step is accepted; on the canonical run of submissions
[1,2,3] with derivation failing on minibatch 2, CoreTrainer is invoked only
for minibatch 1, the failure is raised, the worker is joined, and the
remaining submission is abandoned. -/
theorem C6_derivation_failure_fatal_no_deadlock (dF : Nat → Option Nat) :
    (∀ (s : FState) (mb : Nat), s.bg = .compute mb → dF mb = none →
      bgStepF dF s = some { s with bg := .waitEmptyErr }) ∧
    (∀ s : FState, s.bg = .publishErr →
      bgStepF dF s = some { s with
        bg := .exited, ready := s.ready ++ [none], pFull := s.pFull + 1 }) ∧
    (∀ (s : FState) (mb : Nat) (rest : List (Option (Nat × Nat))),
      s.fg = .trConsume mb → s.ready = none :: rest →
      fgStepF s = some { s with
        fg := .failJoin, ready := rest, pEmpty := s.pEmpty + 1 }) ∧
    (∀ s : FState, s.fg = .failJoin → s.bg ≠ .exited → fgStepF s = none) ∧
    (∀ s : FState, s.fg = .failJoin → s.bg = .exited →
      fgStepF s = some { s with fg := .failed }) ∧
    (∀ s : FState, s.fg = .failed → fgStepF s = none) ∧
    ((runFromF (fun m => if m = 2 then none else some m) 22
        (initStateF [1, 2, 3])).fg = .failed ∧
      (runFromF (fun m => if m = 2 then none else some m) 22
        (initStateF [1, 2, 3])).bg = .exited ∧
      (runFromF (fun m => if m = 2 then none else some m) 22
        (initStateF [1, 2, 3])).trace = [(1, 1)]) := by
  refine ⟨?_, ?_, ?_, ?_, ?_, ?_, by decide, by decide, by decide⟩
  · intro s mb hbg hdf
    obtain ⟨su, f, b, i, r, c1, c2, p1, p2, e, n, t⟩ := s
    dsimp only at hbg ⊢
    subst hbg
    simp [bgStepF, hdf]
  · intro s hbg
    obtain ⟨su, f, b, i, r, c1, c2, p1, p2, e, n, t⟩ := s
    dsimp only at hbg ⊢
    subst hbg
    simp [bgStepF]
  · intro s mb rest hfg hrdy
    obtain ⟨su, f, b, i, r, c1, c2, p1, p2, e, n, t⟩ := s
    dsimp only at hfg hrdy ⊢
    subst hfg
    subst hrdy
    simp [fgStepF]
  · intro s hfg hbg
    obtain ⟨su, f, b, i, r, c1, c2, p1, p2, e, n, t⟩ := s
    dsimp only at hfg hbg ⊢
    subst hfg
    simp [fgStepF, hbg]
  · intro s hfg hbg
    obtain ⟨su, f, b, i, r, c1, c2, p1, p2, e, n, t⟩ := s
    dsimp only at hfg hbg ⊢
    subst hfg
    subst hbg
    simp [fgStepF]
  · intro s hfg
    obtain ⟨su, f, b, i, r, c1, c2, p1, p2, e, n, t⟩ := s
    dsimp only at hfg ⊢
    subst hfg
    simp [fgStepF]

theorem C6_witness :
    fgStepF
      { sub := [9], fg := .failed, bg := .exited, incoming := [],
        ready := [], cFull := 0, cEmpty := 1, pFull := 0, pEmpty := 1,
        eoi := false, nproc := 2, trace := [(1, 1)] } = none :=
  (C6_derivation_failure_fatal_no_deadlock (fun m => some m)).2.2.2.2.2.1 _ rfl

/-- Modelled from the spec and the header comment on `Train` ("The example
is provided as a pointer because we acquire it destructively, via Swap()"):
the object-level contents of the `current_minibatch_` slot, of the worker's
local minibatch object, and of each caller object after its Train() call
returned. -/
structure SwapState where
  curObj : Nat
  bgObj : Nat
  caller : List Nat
  deriving DecidableEq

/-- Modelled from the spec: the slot write of Train(): the caller's object
and `current_minibatch_` exchange contents (`current_minibatch_.Swap(minibatch)`),
so the slot now holds the submitted minibatch and the caller's object holds
the prior slot contents; the value the caller is left with is recorded. -/
def trainPut (mb : Nat) (s : SwapState) : SwapState :=
  { curObj := mb, bgObj := s.bgObj, caller := s.caller ++ [s.curObj] }

/-- Modelled from the spec: the worker's take from Incoming, also by swap:
`current_minibatch_` and the worker's local object exchange contents. -/
def workerTake (s : SwapState) : SwapState :=
  { curObj := s.bgObj, bgObj := s.curObj, caller := s.caller }

/-- One object-level operation on the `current_minibatch_` slot. -/
inductive SwapOp where
  | put (mb : Nat)
  | take
  deriving DecidableEq

/-- Apply one object-level operation. -/
def applySwapOp : SwapOp → SwapState → SwapState
  | .put mb, s => trainPut mb s
  | .take, s => workerTake s

/-- Run a sequence of object-level operations. -/
def runSwapOps : List SwapOp → SwapState → SwapState
  | [], s => s
  | op :: ops, s => runSwapOps ops (applySwapOp op s)

/-- The multiset of minibatch values held anywhere: in the slot, in the
worker's local object, or in any caller object. -/
def holdings (s : SwapState) : Multiset Nat :=
  s.curObj ::ₘ s.bgObj ::ₘ (s.caller : Multiset Nat)

/-- The multiset of values submitted by the `put` operations of a sequence. -/
def putsOf : List SwapOp → Multiset Nat
  | [] => 0
  | .put mb :: ops => mb ::ₘ putsOf ops
  | .take :: ops => putsOf ops

/-- C9: Train() consumes its argument destructively by swap rather than by
copy: after a `put`, the slot holds exactly the submitted minibatch and the
caller's object holds exactly the prior slot contents; and over any sequence
of slot operations the multiset of values held across the slot, the worker's
object and all caller objects equals the initial holdings plus exactly one
occurrence of each submitted value — no value is duplicated (no copy is
made) and none vanishes. -/
theorem C9_train_swaps_not_copies :
    (∀ (mb : Nat) (s : SwapState),
      (trainPut mb s).curObj = mb ∧
      (trainPut mb s).caller = s.caller ++ [s.curObj] ∧
      (trainPut mb s).bgObj = s.bgObj) ∧
    (∀ (ops : List SwapOp) (s : SwapState),
      holdings (runSwapOps ops s) = holdings s + putsOf ops) := by
  constructor
  · intro mb s
    exact ⟨rfl, rfl, rfl⟩
  · intro ops
    induction ops with
    | nil => intro s; simp [runSwapOps, putsOf]
    | cons op ops ih =>
        intro s
        cases op with
        | put mb =>
            have hput : holdings (trainPut mb s) = mb ::ₘ holdings s := by
              simp only [holdings, trainPut]
              have hco : ((s.caller ++ [s.curObj] : List Nat) : Multiset Nat) =
                  (s.caller : Multiset Nat) + {s.curObj} := rfl
              rw [hco]
              simp only [← Multiset.singleton_add]
              abel
            simp only [runSwapOps, applySwapOp, putsOf]
            rw [ih (trainPut mb s), hput]
            simp only [← Multiset.singleton_add]
            abel
        | take =>
            have htake : holdings (workerTake s) = holdings s := by
              simp only [holdings, workerTake]
              exact Multiset.cons_swap _ _ _
            simp only [runSwapOps, applySwapOp, putsOf]
            rw [ih (workerTake s), htake]

theorem C9_witness :
    holdings (runSwapOps [SwapOp.put 5, SwapOp.take, SwapOp.put 6]
        { curObj := 0, bgObj := 1, caller := [] }) =
      holdings { curObj := 0, bgObj := 1, caller := [] } +
        putsOf [SwapOp.put 5, SwapOp.take, SwapOp.put 6] :=
  (C9_train_swaps_not_copies).2 [SwapOp.put 5, SwapOp.take, SwapOp.put 6] _

/-- Which matrix the output pointer `*word_embedding` designates. -/
inductive EmbPtr where
  | embeddingMat
  | storage
  deriving DecidableEq

/-- Result of `GetWordEmbedding`: the pointer target, the contents written
into `*word_embedding_storage` (none when the storage is not touched), and
the value of `embedding_mat_` afterwards. -/
structure EmbOut (M : Type) where
  ptr : EmbPtr
  storageContents : Option M
  embeddingMatAfter : M

/-- Modelled from the spec and the header comment (rnnlm-training.h lines
123-133 and 175-179; the body is not in the tree): GetWordEmbedding sets
`*word_embedding` to `&embedding_mat_` in the case where there is no
sampling and no sparse feature representation (`word_feature_mat_` has zero
rows), and otherwise resizes and fills `*word_embedding_storage`
appropriately and points `*word_embedding` at it: to the active-row subset
of the embedding matrix when sampling without word features, and to the
(possibly active-row-restricted) product of the sparse word-feature matrix
with `embedding_mat_` when word features are present.  The matrix type and
the three derived contents are abstract parameters. -/
def getWordEmbedding (M : Type) (sampling : Bool) (featRows : Nat)
    (embeddingMat rowSubset featProduct activeFeatProduct : M) : EmbOut M :=
  if sampling = false ∧ featRows = 0 then
    { ptr := .embeddingMat, storageContents := none,
      embeddingMatAfter := embeddingMat }
  else
    { ptr := .storage,
      storageContents := some (if featRows = 0 then rowSubset
        else if sampling then activeFeatProduct else featProduct),
      embeddingMatAfter := embeddingMat }

/-- C10: GetWordEmbedding sets `*word_embedding` to `&embedding_mat_`
exactly when the minibatch uses no sampling and there is no sparse
word-feature representation (zero feature rows), and in that case writes
nothing to the storage; in every other case it fills
`*word_embedding_storage` and points `*word_embedding` at it; in all cases
`embedding_mat_` itself is left unchanged. -/
theorem C10_word_embedding_pointer_cases (M : Type) (sampling : Bool)
    (featRows : Nat) (embeddingMat rowSubset featProduct activeFeatProduct : M) :
    ((getWordEmbedding M sampling featRows embeddingMat rowSubset
        featProduct activeFeatProduct).ptr = .embeddingMat ↔
      sampling = false ∧ featRows = 0) ∧
    (sampling = false ∧ featRows = 0 →
      (getWordEmbedding M sampling featRows embeddingMat rowSubset
        featProduct activeFeatProduct).storageContents = none) ∧
    (¬(sampling = false ∧ featRows = 0) →
      (getWordEmbedding M sampling featRows embeddingMat rowSubset
          featProduct activeFeatProduct).ptr = .storage ∧
      (getWordEmbedding M sampling featRows embeddingMat rowSubset
          featProduct activeFeatProduct).storageContents.isSome = true) ∧
    (getWordEmbedding M sampling featRows embeddingMat rowSubset
        featProduct activeFeatProduct).embeddingMatAfter = embeddingMat := by
  unfold getWordEmbedding
  by_cases hc : sampling = false ∧ featRows = 0
  · rw [if_pos hc]
    refine ⟨by simpa using hc, fun _ => rfl, fun hn => absurd hc hn, rfl⟩
  · rw [if_neg hc]
    refine ⟨by simpa using hc, fun hx => absurd hx hc,
      fun _ => ⟨rfl, rfl⟩, rfl⟩

theorem C10_witness :
    ((getWordEmbedding Nat true 0 11 22 33 44).ptr = .embeddingMat ↔
      true = false ∧ 0 = 0) ∧
    (true = false ∧ 0 = 0 →
      (getWordEmbedding Nat true 0 11 22 33 44).storageContents = none) ∧
    (¬(true = false ∧ 0 = 0) →
      (getWordEmbedding Nat true 0 11 22 33 44).ptr = .storage ∧
      (getWordEmbedding Nat true 0 11 22 33 44).storageContents.isSome =
        true) ∧
    (getWordEmbedding Nat true 0 11 22 33 44).embeddingMatAfter = 11 :=
  C10_word_embedding_pointer_cases Nat true 0 11 22 33 44
